import Mathlib

set_option maxHeartbeats 1000000
set_option maxRecDepth 4000

namespace Naptha

/-! Shallow embedding of naptha_sdk/scrape.py: the dependency extractor that
scans a function's global scope and entry file for the local symbols it
transitively references, inlines constants/unions, and topologically orders
the local entries.  Python strings are Lean String, Python dicts are ordered
association lists, machine-level concerns do not arise. -/

/-- Check that pat occurs at the start of hay (character-list level). -/
def charsStarts : List Char → List Char → Bool
  | _, [] => true
  | [], _ :: _ => false
  | a :: as, b :: bs => a == b && charsStarts as bs

/-- Check that pat occurs somewhere inside hay (character-list level). -/
def charsHas : List Char → List Char → Bool
  | [], pat => pat.isEmpty
  | a :: t, pat => charsStarts (a :: t) pat || charsHas t pat

/-- Model of the Python substring test needle in hay, used by scrape.py both
for the textual used-variable filter and for the dependency graph. -/
def strContains (hay needle : String) : Bool := charsHas hay.toList needle.toList

/-- Model of Python str.startswith. -/
def strStarts (s pat : String) : Bool := charsStarts s.toList pat.toList

/-- Model of Python str.endswith. -/
def strEnds (s pat : String) : Bool := charsStarts s.toList.reverse pat.toList.reverse

/-- Model of Python str.strip: drop whitespace from both ends. -/
def pyStrip (s : String) : String :=
  String.mk (((s.toList.dropWhile Char.isWhitespace).reverse.dropWhile
    Char.isWhitespace).reverse)

/-- Split a character list at newline characters. -/
def splitNlChars : List Char → List (List Char)
  | [] => [[]]
  | c :: rest =>
    let r := splitNlChars rest
    if c == '\n' then [] :: r
    else
      match r with
      | [] => [[c]]
      | h :: t => (c :: h) :: t

/-- Model of Python str.splitlines as used here (bodies are joined back with
newlines immediately afterwards). -/
def splitLines (s : String) : List String := (splitNlChars s.toList).map String.mk

/-- A Python runtime value as far as scrape.py distinguishes values: a str
(isinstance checks), or any other object together with the text its f-string
interpolation produces. -/
inductive PyVal where
  | str (s : String)
  | other (reprStr : String)
deriving Repr, DecidableEq

/-- The text an f-string interpolation of the value produces (for a str the
string itself, unquoted). -/
def PyVal.fstr : PyVal → String
  | .str s => s
  | .other r => r

/-- One discovered dependency: the dicts scrape.py appends to modules.
Field impType is the Python key import_type, modPath the key module,
source is none when the Python dict has no source key, impNeeded is false
exactly when scrape.py sets import_needed = False. -/
structure ModEntry where
  name : String
  modPath : Option String
  impType : String
  is_local : Bool
  source : Option String
  impNeeded : Bool
deriving Repr, DecidableEq

/-- One entry of the variables lists built by scrape_init and
get_obj_dependencies: a constant binding, a constructor-call binding
(with the optional keywords/values payload), or a union binding. -/
inductive VarEntry where
  | constant (target : String) (value : PyVal)
  | call (target : String) (clsName : String) (kws : Option (List (String × PyVal)))
  | unionVar (target : String) (value : String)
deriving Repr, DecidableEq

/-- The target key every variables entry carries. -/
def VarEntry.target : VarEntry → String
  | .constant t _ => t
  | .call t _ _ => t
  | .unionVar t _ => t

/-- One member of a typing-Union object's args tuple: its optional dunder
name, its str() text, whether inspect.isclass holds of it, and its defining
module path. -/
structure UnionArg where
  argName : Option String
  strRepr : String
  isClass : Bool
  argModule : String
deriving Repr, DecidableEq

mutual
/-- A Python object as get_obj_dependencies inspects it.  prim covers
int/str/float/bool (with its f-string text); unionTy an object whose type
name contains Union; pymodule a module object (isLoc the value
is_local_module computes from its file path); objRef any other object, with
its dunder-module name, whether inspect.isclass holds, whether it is a
TypeVar, the source text inspect.getsource would return (none when getsource
raises), and the result of the sys.modules lookup of its module.  Object
identity for the processed set is modelled by the objId field. -/
inductive PyObj : Type where
  | prim (objId : Nat) (reprStr : String)
  | unionTy (objId : Nat) (args : List UnionArg)
  | pymodule (objId : Nat) (pyName : String) (isLoc : Bool)
  | objRef (objId : Nat) (modName : String) (isClass : Bool) (isTypeVar : Bool)
      (src : Option String) (modState : ModuleState)

/-- Result of sys.modules.get on an object's dunder-module name: absent, or
present with the module object's identity, its is_local_module value, and
its global dict. -/
inductive ModuleState : Type where
  | absent
  | present (modId : Nat) (isLoc : Bool) (dict : List (String × PyObj))
end

/-- Identity of an object, for the processed set. -/
def PyObj.oid : PyObj → Nat
  | .prim i _ => i
  | .unionTy i _ => i
  | .pymodule i _ _ => i
  | .objRef i _ _ _ _ _ => i

/-- The display text of a union member: its dunder name if present, else
its str() text (the arg.__name__-if-hasattr-else-str(arg) expression). -/
def unionArgDisplay (a : UnionArg) : String := a.argName.getD a.strRepr

/-- The comma-joined member texts inside the synthesized Union[...] line. -/
def unionArgsStr (args : List UnionArg) : String :=
  String.intercalate ", " (args.map unionArgDisplay)

mutual
/-- The loop of get_obj_dependencies over a scope's name-to-object bindings:
a binding is inspected when its name occurs in the scanned body text and the
object is not yet in the processed set, names with the dunder prefix are
skipped, and the object is added to the processed set before classification.
The Python function mutates one shared processed set; here the set is the
input list p plus the returned list of newly added ids, in insertion order.
Errors model exceptions that propagate out of the Python loop. -/
def godBindings : List (String × PyObj) → String → List Nat →
    Except String (List ModEntry × List VarEntry × List Nat)
  | [], _, _ => .ok ([], [], [])
  | (nm, obj) :: rest, fc, p =>
    if strContains fc nm && !(p.contains obj.oid) then
      if strStarts nm "__" then godBindings rest fc p
      else
        match godObj nm obj fc (p ++ [obj.oid]) with
        | .error e => .error e
        | .ok (cms, cvs, add1) =>
          match godBindings rest fc (p ++ [obj.oid] ++ add1) with
          | .error e => .error e
          | .ok (ms, vs, add2) => .ok (cms ++ ms, cvs ++ vs, [obj.oid] ++ add1 ++ add2)
    else godBindings rest fc p

/-- Classification of one inspected binding, following the branch order of
get_obj_dependencies: Union type, primitive constant, module object, and
otherwise the owning-module branch with its recursive depth-first expansion
over the owning module's dict using the object's own source as the new body;
a local non-TypeVar object whose source cannot be retrieved raises. -/
def godObj : String → PyObj → String → List Nat →
    Except String (List ModEntry × List VarEntry × List Nat)
  | nm, .unionTy _ args, _, _ =>
    .ok ((args.filter (fun a => a.isClass)).map
           (fun a => ModEntry.mk (unionArgDisplay a) (some a.argModule) "selective" false none true),
         [VarEntry.unionVar nm ("Union[" ++ unionArgsStr args ++ "]")], [])
  | nm, .prim _ r, _, _ => .ok ([], [VarEntry.constant nm (PyVal.str r)], [])
  | nm, .pymodule _ pyNm isLoc, _, _ =>
    .ok ([ModEntry.mk nm (some pyNm) "standard" isLoc none true], [], [])
  | nm, .objRef _ modNm _ isTV src mstate, _, p =>
    match mstate with
    | .absent => .ok ([], [], [])
    | .present mid mLoc dict =>
      if p.contains mid then .ok ([], [], [])
      else if mLoc then
        if isTV then .ok ([ModEntry.mk nm (some modNm) "selective" true (some "") true], [], [])
        else
          match src with
          | none => .error "OSError"
          | some s =>
            match godBindings dict s p with
            | .error e => .error e
            | .ok (dms, dvs, addD) =>
              .ok (dms ++ [ModEntry.mk nm (some modNm) "selective" true (some s) true], dvs, addD)
      else .ok ([ModEntry.mk nm (some modNm) "selective" false none true], [], [])
end

/-- Top-level get_obj_dependencies call with a fresh processed set, returning
the modules and variables lists. -/
def get_obj_dependencies (cg : List (String × PyObj)) (fnCode : String) :
    Except String (List ModEntry × List VarEntry) :=
  match godBindings cg fnCode [] with
  | .error e => .error e
  | .ok (ms, vs, _) => .ok (ms, vs)

example : get_obj_dependencies [("x", PyObj.prim 1 "5")] "return x" =
    .ok ([], [VarEntry.constant "x" (PyVal.str "5")]) := by rfl

/-! The AST fragment scrape_init inspects.  An assignment target is either a
plain Name or something else; values carry exactly the distinctions
extract_value makes. -/

/-- An assignment target node: a Name, or any other target form. -/
inductive Target where
  | name (id : String)
  | otherTgt
deriving Repr, DecidableEq

mutual
/-- An expression node as extract_value and the scrape_init assignment scan
distinguish it: Constant (with its Python value), Name, Attribute, Call
(with its function node and keyword arguments), or anything else together
with its ast.unparse text. -/
inductive AValue : Type where
  | const (v : PyVal)
  | nameV (id : String)
  | attrV (base : AValue) (attrName : String)
  | callV (fn : AFunc) (kws : List (String × AValue))
  | otherV (unparsed : String)

/-- The function part of a Call node: a Name, an Attribute, or another form. -/
inductive AFunc : Type where
  | fnName (id : String)
  | fnAttr (base : AValue) (attrName : String)
  | fnOther
end

mutual
/-- Model of extract_value: Constant yields its Python value, Name its id,
Attribute the dotted text, a Call the base-or-id text with (), anything else
its ast.unparse text; a Call whose function is neither Name nor Attribute
falls through every branch and returns Python None. -/
def extract_value : AValue → PyVal
  | .const v => v
  | .nameV id => .str id
  | .attrV base a => .str ((extract_value base).fstr ++ "." ++ a)
  | .callV fn _ => extractCallFn fn
  | .otherV s => .str s

/-- The Call branch of extract_value on the Call's function node. -/
def extractCallFn : AFunc → PyVal
  | .fnName id => .str (id ++ "()")
  | .fnAttr base a => .str ((extract_value base).fstr ++ "." ++ a ++ "()")
  | .fnOther => .other "None"
end

/-- A statement node of the parsed entry file, keeping only the structure
ast.walk and the Assign scan observe: assignments, def and class bodies,
other compound statements with nested statement children, and leaves. -/
inductive Stmt where
  | assign (targets : List Target) (value : AValue)
  | funcDef (nm : String) (body : List Stmt)
  | classDef (nm : String) (body : List Stmt)
  | compound (body : List Stmt)
  | simple

/-- The statement children ast.iter_child_nodes contributes to the walk. -/
def stmtChildren : Stmt → List Stmt
  | .assign _ _ => []
  | .funcDef _ b => b
  | .classDef _ b => b
  | .compound b => b
  | .simple => []

mutual
/-- Size of one statement, for the walk's termination measure. -/
def sizeStmt : Stmt → Nat
  | .assign _ _ => 1
  | .funcDef _ b => 1 + sizeStmts b
  | .classDef _ b => 1 + sizeStmts b
  | .compound b => 1 + sizeStmts b
  | .simple => 1

/-- Size of a statement list. -/
def sizeStmts : List Stmt → Nat
  | [] => 0
  | s :: rest => sizeStmt s + sizeStmts rest
end

theorem sizeStmt_pos (s : Stmt) : 1 ≤ sizeStmt s := by
  cases s <;> simp [sizeStmt]

theorem sizeStmts_append (a b : List Stmt) :
    sizeStmts (a ++ b) = sizeStmts a + sizeStmts b := by
  induction a with
  | nil => simp [sizeStmts]
  | cons s rest ih => simp [sizeStmts, ih]; omega

theorem sizeStmts_children_lt (s : Stmt) : sizeStmts (stmtChildren s) < sizeStmt s := by
  cases s <;> simp [stmtChildren, sizeStmt, sizeStmts]

/-- Model of ast.walk restricted to statements: breadth-first traversal with
a queue, yielding each popped node and pushing its children at the back. -/
def walkQ : List Stmt → List Stmt
  | [] => []
  | s :: rest => s :: walkQ (rest ++ stmtChildren s)
termination_by l => sizeStmts l
decreasing_by
  simp only [sizeStmts, sizeStmts_append]
  have := sizeStmts_children_lt s
  omega

/-- The constant-kind or call-kind entry one Name target of an Assign node
contributes: a Call with a Name function yields a call entry (keywords
captured only when nonempty), a Constant yields a constant entry, and every
other value form is ignored. -/
def valueEntry (tgt : String) : AValue → Option VarEntry
  | .callV (.fnName cls) kws =>
    some (.call tgt cls
      (if kws.isEmpty then none else some (kws.map (fun kv => (kv.1, extract_value kv.2)))))
  | .const v => some (.constant tgt v)
  | _ => none

/-- Entries contributed by one Assign node's target list, in target order. -/
def targetEntries (value : AValue) : List Target → List VarEntry
  | [] => []
  | .name id :: rest =>
    (match valueEntry id value with | some e => [e] | none => []) ++ targetEntries value rest
  | .otherTgt :: rest => targetEntries value rest

/-- Entries contributed by one walked statement (only Assign contributes). -/
def assignEntries : Stmt → List VarEntry
  | .assign tgts v => targetEntries v tgts
  | _ => []

/-- Ordered-dict upsert keyed by key: an existing key keeps its position and
gets the new value, a new key is appended, mirroring Python dict assignment. -/
def upsertBy {α : Type} (key : α → String) (m : List α) (v : α) : List α :=
  if m.any (fun w => key w == key v) then m.map (fun w => if key w == key v then v else w)
  else m ++ [v]

/-- All entries the walk records, in walk order, before dict deduplication. -/
def recordedEntries (body : List Stmt) : List VarEntry :=
  ((walkQ body).map assignEntries).flatten

/-- Model of scrape_init on the parsed entry file's top-level statement list:
walk every node, record constant-kind and call-kind Assign entries into the
unique_variables dict keyed by target, and return the dict's values. -/
def scrape_init (body : List Stmt) : List VarEntry :=
  (recordedEntries body).foldl (upsertBy VarEntry.target) []

example : scrape_init [Stmt.assign [Target.name "x"] (AValue.const (PyVal.other "1")),
    Stmt.assign [Target.name "x"] (AValue.const (PyVal.other "2"))] =
    [VarEntry.constant "x" (PyVal.other "2")] := by
  simp [scrape_init, recordedEntries, walkQ, stmtChildren, assignEntries, targetEntries,
    valueEntry, upsertBy, VarEntry.target]

/-! The dependency sorter.  scrape.py imports sort_modules and
extract_dependencies from naptha_sdk.module_manager, whose file is not part
of this source tree; both are modelled from the spec (section 4.4). -/

/-- Modelled from the spec: extract_dependencies of naptha_sdk.module_manager
(file absent from the tree).  For one local entry it computes the names of
the other local entries that occur textually inside its sourceText. -/
def extract_dependencies (mod : ModEntry) (localModules : List ModEntry) : List String :=
  ((localModules.filter
      (fun m => !(m.name == mod.name) && strContains (mod.source.getD "") m.name)).map
    (fun m => m.name))

/-- The module_dependencies dict scrape_func builds: each local entry's name
mapped to its extracted dependency names (Python dict comprehension, so a
duplicated name keeps its first position with the last-computed value). -/
def module_dependencies (locals : List ModEntry) : List (String × List String) :=
  (locals.map (fun m => (m.name, extract_dependencies m locals))).foldl
    (upsertBy Prod.fst) []

/-- Dependency-name lookup in the built dict (absent keys have no deps). -/
def depsOf (deps : List (String × List String)) (n : String) : List String :=
  match deps.find? (fun kv => kv.1 == n) with
  | some kv => kv.2
  | none => []

/-- A node is ready (zero in-degree) when every name it depends on has
already been emitted. -/
def readyB (deps : List (String × List String)) (emitted : List String) (m : ModEntry) : Bool :=
  (depsOf deps m.name).all (fun d => emitted.contains d)

/-- Pick the first ready node of the remaining list, returning it and the
rest in original order (the stable tie-break by discovery order). -/
def pickReady (deps : List (String × List String)) (emitted : List String) :
    List ModEntry → Option (ModEntry × List ModEntry)
  | [] => none
  | m :: rest =>
    if readyB deps emitted m then some (m, rest)
    else
      match pickReady deps emitted rest with
      | some (r, rest2) => some (r, m :: rest2)
      | none => none

/-- Kahn-style loop: repeatedly emit the first ready node; when nodes remain
but none is ready the graph has a cycle and the sort fails. -/
def sortGo (deps : List (String × List String)) :
    Nat → List String → List ModEntry → Except String (List ModEntry)
  | _, _, [] => .ok []
  | 0, _, _ :: _ => .error "CyclicLocalDependency"
  | fuel + 1, emitted, l =>
    match pickReady deps emitted l with
    | none => .error "CyclicLocalDependency"
    | some (m, rest) =>
      match sortGo deps fuel (m.name :: emitted) rest with
      | .ok out => .ok (m :: out)
      | .error e => .error e

/-- Modelled from the spec: sort_modules of naptha_sdk.module_manager (file
absent from the tree).  Stable topological sort of the local entries by
repeated selection of zero-in-degree nodes in discovery order, failing with
the cyclic-dependency error when no valid order exists. -/
def sort_modules (mods : List ModEntry) (deps : List (String × List String)) :
    Except String (List ModEntry) :=
  sortGo deps mods.length [] mods

/-- A node with no dependency inside the subset S. -/
def minimalInB (deps : List (String × List String)) (S : List ModEntry) (m : ModEntry) : Bool :=
  S.all (fun b => !((depsOf deps m.name).contains b.name))

/-- Acyclicity of the dependency graph over a finite node list, in the form
Kahn's algorithm consumes: every nonempty sublist contains a node none of
whose dependencies lies in that sublist.  On finite graphs this is the
standard equivalent of having no directed cycle. -/
def acyclicOnB (mods : List ModEntry) (deps : List (String × List String)) : Bool :=
  mods.sublists.all (fun S => S.isEmpty || S.any (fun m => minimalInB deps S m))

/-! The driver scrape_func. -/

/-- The ordered bundle scrape_func returns. -/
structure ScrapeResult where
  fnCode : String
  fnName : String
  local_modules : List ModEntry
  selective_import_modules : List ModEntry
  standard_import_modules : List ModEntry
  variable_modules : List ModEntry
  union_modules : List ModEntry
deriving Repr, DecidableEq

/-- Decorator stripping: drop every line whose stripped text starts with the
at-sign, rejoining with newlines. -/
def stripDecorators (src : String) : String :=
  String.intercalate "\n" ((splitLines src).filter (fun l => !(strStarts (pyStrip l) "@")))

/-- The conventional bundle-relative location of a referenced YAML file. -/
def yamlPath (cwdName : String) (s : String) : String := "src/" ++ cwdName ++ "/" ++ s

/-- The keyword-argument text of a synthesized constructor-call line: string
values are quoted, every pair is followed by a comma and space. -/
def kwLine : List (String × PyVal) → String
  | [] => ""
  | (kw, PyVal.str v) :: rest => kw ++ "=\"" ++ v ++ "\", " ++ kwLine rest
  | (kw, PyVal.other v) :: rest => kw ++ "=" ++ v ++ ", " ++ kwLine rest

/-- Whether inspect.isclass holds of the object. -/
def isClassObj : PyObj → Bool
  | .objRef _ _ isC _ _ _ => isC
  | _ => false

/-- Dict lookup in the context globals. -/
def lookupGlobal (g : List (String × PyObj)) (n : String) : Option PyObj :=
  (g.find? (fun kv => kv.1 == n)).map (fun kv => kv.2)

/-- The used-variables loop of scrape_func.  The Python local class_info
survives across iterations; lastCI models it, so a constant whose value ends
in .yaml but whose file is missing re-appends the previous iteration's entry,
or raises UnboundLocalError when no iteration has assigned class_info yet.
fileEx and yamlLd model the filesystem probe and the YAML loader (yamlLd
gives the f-string text of the parsed structure). -/
def inlineLoop (cg : List (String × PyObj)) (cwdName : String)
    (fileEx : String → Bool) (yamlLd : String → String) :
    List VarEntry → List ModEntry → Option ModEntry → Except String (List ModEntry)
  | [], mods, _ => .ok mods
  | v :: rest, mods, lastCI =>
    match v with
    | .constant tgt val =>
      let newLast : Option ModEntry :=
        match val with
        | .str s =>
          if strEnds s ".yaml" then
            if fileEx (yamlPath cwdName s) then
              some (ModEntry.mk tgt none "variable" false
                (some (tgt ++ " = " ++ yamlLd (yamlPath cwdName s) ++ "\n")) true)
            else lastCI
          else some (ModEntry.mk tgt none "variable" false (some (tgt ++ " = " ++ s ++ "\n")) true)
        | .other r =>
          some (ModEntry.mk tgt none "variable" false (some (tgt ++ " = " ++ r ++ "\n")) true)
      match newLast with
      | none => .error "UnboundLocalError"
      | some ci => inlineLoop cg cwdName fileEx yamlLd rest (mods ++ [ci]) (some ci)
    | .unionVar tgt uval =>
      let ci := ModEntry.mk tgt none "union" false (some (tgt ++ " = " ++ uval ++ "\n")) true
      inlineLoop cg cwdName fileEx yamlLd rest (mods ++ [ci]) (some ci)
    | .call tgt cls kws =>
      match lookupGlobal cg cls with
      | some (PyObj.objRef _ modNm true _ _ mstate) =>
        match mstate with
        | .absent => .error "KeyError"
        | .present _ _ _ =>
          let line := tgt ++ " = " ++ cls ++ "(" ++
            (match kws with | some l => kwLine l | none => "") ++ ")\n"
          let ci := ModEntry.mk cls (some modNm) "variable" false (some line)
            (!(mods.any (fun m => m.name == cls)))
          inlineLoop cg cwdName fileEx yamlLd rest (mods ++ [ci]) (some ci)
      | _ => inlineLoop cg cwdName fileEx yamlLd rest mods lastCI

/-- Model of scrape_func: strip decorator lines from the function's source,
keep the entry-file variables whose target occurs in the body, run
get_obj_dependencies over the context globals, inline the used variables,
drop every entry named logger, topologically sort the local entries, and
partition the rest into the returned bundle. -/
def scrape_func (fnSource fnName : String) (cg : List (String × PyObj))
    (vars0 : List VarEntry) (cwdName : String)
    (fileEx : String → Bool) (yamlLd : String → String) : Except String ScrapeResult :=
  let fnCode := stripDecorators fnSource
  let used := vars0.filter (fun v => strContains fnCode v.target)
  match godBindings cg fnCode [] with
  | .error e => .error e
  | .ok (mods0, newVars, _) =>
    match inlineLoop cg cwdName fileEx yamlLd (used ++ newVars) mods0 none with
    | .error e => .error e
    | .ok mods1 =>
      let mods := mods1.filter (fun m => !(m.name == "logger"))
      let locals := mods.filter (fun m => m.is_local)
      match sort_modules locals (module_dependencies locals) with
      | .error e => .error e
      | .ok sorted =>
        .ok (ScrapeResult.mk fnCode fnName sorted
          (mods.filter (fun m => !m.is_local && m.impType == "selective"))
          (mods.filter (fun m => m.impType == "standard"))
          (mods.filter (fun m => m.impType == "variable"))
          (mods.filter (fun m => m.impType == "union")))

example : scrape_func "def f():\n    return config_path" "f" []
    [VarEntry.constant "config_path" (PyVal.str "settings.yaml")] "proj"
    (fun _ => true) (fun _ => "\x7b'x': 1\x7d") =
    .ok (ScrapeResult.mk "def f():\n    return config_path" "f" [] [] []
      [ModEntry.mk "config_path" none "variable" false
        (some "config_path = \x7b'x': 1\x7d\n") true] []) := by rfl

/-! Lemmas about the sorter. -/

/-- An emitted-order invariant: each entry's dependencies are already in the
emitted set when the entry is reached. -/
def topoChain (deps : List (String × List String)) : List String → List ModEntry → Prop
  | _, [] => True
  | em, m :: out => (∀ d ∈ depsOf deps m.name, d ∈ em) ∧ topoChain deps (m.name :: em) out

theorem pickReady_eq_none {deps : List (String × List String)} {em : List String} :
    ∀ {l : List ModEntry}, pickReady deps em l = none →
      ∀ m ∈ l, readyB deps em m = false := by
  intro l
  induction l with
  | nil => intro _ m hm; cases hm
  | cons a tl ih =>
    intro h m hm
    simp only [pickReady] at h
    by_cases ha : readyB deps em a = true
    · rw [if_pos ha] at h; cases h
    · rw [if_neg ha] at h
      rcases List.mem_cons.mp hm with rfl | hm2
      · simpa using ha
      · cases hpr : pickReady deps em tl with
        | none => exact ih hpr m hm2
        | some pr => rcases pr with ⟨r, rest2⟩; rw [hpr] at h; cases h

theorem pickReady_eq_some {deps : List (String × List String)} {em : List String} :
    ∀ {l : List ModEntry} {m : ModEntry} {rest : List ModEntry},
      pickReady deps em l = some (m, rest) →
      readyB deps em m = true ∧ ∃ pre suf, l = pre ++ m :: suf ∧ rest = pre ++ suf := by
  intro l
  induction l with
  | nil => intro m rest h; simp [pickReady] at h
  | cons a tl ih =>
    intro m rest h
    simp only [pickReady] at h
    by_cases ha : readyB deps em a = true
    · rw [if_pos ha] at h
      have h2 := Option.some.inj h
      injection h2 with h3 h4
      subst h3; subst h4
      exact ⟨ha, [], tl, by simp, by simp⟩
    · rw [if_neg ha] at h
      cases hpr : pickReady deps em tl with
      | none => rw [hpr] at h; cases h
      | some pr =>
        rcases pr with ⟨r, rest2⟩
        rw [hpr] at h
        have h2 := Option.some.inj h
        injection h2 with h3 h4
        subst h3; subst h4
        obtain ⟨hr, pre, suf, htl, hrest2⟩ := ih hpr
        exact ⟨hr, a :: pre, suf, by simp [htl], by simp [hrest2]⟩

theorem pickReady_isSome_of_ready {deps : List (String × List String)} {em : List String}
    {l : List ModEntry} (h : ∃ m ∈ l, readyB deps em m = true) :
    ∃ m rest, pickReady deps em l = some (m, rest) := by
  cases hpr : pickReady deps em l with
  | some pr => exact ⟨pr.1, pr.2, by simp⟩
  | none =>
    obtain ⟨m, hm, hready⟩ := h
    rw [pickReady_eq_none hpr m hm] at hready
    cases hready

theorem sortGo_sound {deps : List (String × List String)} :
    ∀ (fuel : Nat) (em : List String) (l out : List ModEntry),
      sortGo deps fuel em l = .ok out → out.Perm l ∧ topoChain deps em out := by
  intro fuel
  induction fuel with
  | zero =>
    intro em l out h
    cases l with
    | nil =>
      simp only [sortGo] at h
      cases Except.ok.inj h
      exact ⟨List.Perm.refl _, trivial⟩
    | cons a tl => simp only [sortGo] at h; cases h
  | succ fuel ih =>
    intro em l out h
    cases l with
    | nil =>
      simp only [sortGo] at h
      cases Except.ok.inj h
      exact ⟨List.Perm.refl _, trivial⟩
    | cons a tl =>
      cases hpr : pickReady deps em (a :: tl) with
      | none => simp only [sortGo, hpr] at h; cases h
      | some pr =>
        rcases pr with ⟨m, rest⟩
        cases hrec : sortGo deps fuel (m.name :: em) rest with
        | error e => simp only [sortGo, hpr, hrec] at h; cases h
        | ok out2 =>
          simp only [sortGo, hpr, hrec] at h
          cases Except.ok.inj h
          obtain ⟨hperm, hchain⟩ := ih (m.name :: em) rest out2 hrec
          obtain ⟨hready, pre, suf, hl, hrest⟩ := pickReady_eq_some hpr
          constructor
          · have h1 : (m :: out2).Perm (m :: rest) := hperm.cons m
            rw [hrest] at h1
            have h2 : (m :: (pre ++ suf)).Perm (pre ++ m :: suf) := List.perm_middle.symm
            rw [hl]
            exact h1.trans h2
          · simp only [topoChain]
            refine ⟨?_, hchain⟩
            intro d hd
            have := List.all_eq_true.mp hready d hd
            simpa using this

theorem sortGo_error_msg {deps : List (String × List String)} :
    ∀ (fuel : Nat) (em : List String) (l : List ModEntry) (e : String),
      sortGo deps fuel em l = .error e → e = "CyclicLocalDependency" := by
  intro fuel
  induction fuel with
  | zero =>
    intro em l e h
    cases l with
    | nil => simp only [sortGo] at h; cases h
    | cons a tl => simp only [sortGo] at h; exact (Except.error.inj h).symm
  | succ fuel ih =>
    intro em l e h
    cases l with
    | nil => simp only [sortGo] at h; cases h
    | cons a tl =>
      cases hpr : pickReady deps em (a :: tl) with
      | none =>
        simp only [sortGo, hpr] at h
        exact (Except.error.inj h).symm
      | some pr =>
        rcases pr with ⟨m, rest⟩
        cases hrec : sortGo deps fuel (m.name :: em) rest with
        | error e2 =>
          simp only [sortGo, hpr, hrec] at h
          cases Except.error.inj h
          exact ih (m.name :: em) rest e hrec
        | ok out2 => simp only [sortGo, hpr, hrec] at h; cases h

theorem topoChain_position {deps : List (String × List String)} :
    ∀ (out : List ModEntry) (em : List String), topoChain deps em out →
      ∀ (i : Nat) (hi : i < out.length) (d : String),
        d ∈ depsOf deps ((out.get ⟨i, hi⟩).name) →
        d ∈ em ∨ ∃ k, ∃ hk : k < out.length, k < i ∧ (out.get ⟨k, hk⟩).name = d := by
  intro out
  induction out with
  | nil => intro em _ i hi; exact absurd hi (by simp)
  | cons m out ih =>
    intro em hchain i hi d hd
    obtain ⟨hd0, htl⟩ := hchain
    cases i with
    | zero => exact Or.inl (hd0 d hd)
    | succ i =>
      have hi2 : i < out.length := Nat.lt_of_succ_lt_succ hi
      have hd2 : d ∈ depsOf deps ((out.get ⟨i, hi2⟩).name) := hd
      rcases ih (m.name :: em) htl i hi2 d hd2 with hmem | ⟨k, hk, hki, hname⟩
      · rcases List.mem_cons.mp hmem with heq | hmem2
        · exact Or.inr ⟨0, Nat.succ_pos _, Nat.succ_pos _, heq.symm⟩
        · exact Or.inl hmem2
      · exact Or.inr ⟨k + 1, Nat.succ_lt_succ hk, Nat.succ_lt_succ hki, hname⟩

theorem topoChain_minimal {deps : List (String × List String)} :
    ∀ (out : List ModEntry) (em : List String),
      topoChain deps em out → (out.map (fun e => e.name)).Nodup →
      ∀ S : List ModEntry, S ≠ [] → (∀ b ∈ S, b ∈ out) → (∀ b ∈ S, b.name ∉ em) →
      ∃ m ∈ S, ∀ b ∈ S, b.name ∉ depsOf deps m.name := by
  intro out
  induction out with
  | nil =>
    intro em _ _ S hS hsub _
    rcases S with _ | ⟨s, S2⟩
    · exact absurd rfl hS
    · exact absurd (hsub s (List.mem_cons_self s S2)) (List.not_mem_nil s)
  | cons a out ih =>
    intro em hchain hnd S hS hsub hem
    obtain ⟨hd0, htl⟩ := hchain
    rw [List.map_cons, List.nodup_cons] at hnd
    obtain ⟨hhead, hnd2⟩ := hnd
    by_cases haS : a ∈ S
    · refine ⟨a, haS, ?_⟩
      intro b hb hdep
      exact hem b hb (hd0 b.name hdep)
    · have hsub2 : ∀ b ∈ S, b ∈ out := by
        intro b hb
        rcases List.mem_cons.mp (hsub b hb) with rfl | h
        · exact absurd hb haS
        · exact h
      have hem2 : ∀ b ∈ S, b.name ∉ (a.name :: em) := by
        intro b hb h
        rcases List.mem_cons.mp h with heq | h2
        · exact hhead (heq ▸ List.mem_map.mpr ⟨b, hsub2 b hb, rfl⟩)
        · exact hem b hb h2
      exact ih (a.name :: em) htl hnd2 S hS hsub2 hem2

theorem sortGo_complete {mods : List ModEntry} {deps : List (String × List String)}
    (hacyc : acyclicOnB mods deps = true) :
    ∀ (fuel : Nat) (l : List ModEntry) (em : List String),
      l.length ≤ fuel → l.Sublist mods →
      (∀ x ∈ l, ∀ d ∈ depsOf deps x.name, d ∈ em ∨ d ∈ l.map (fun e => e.name)) →
      ∃ out, sortGo deps fuel em l = .ok out := by
  intro fuel
  induction fuel with
  | zero =>
    intro l em hlen hsub hinv
    have hnil : l = [] := List.length_eq_zero.mp (Nat.le_zero.mp hlen)
    subst hnil
    exact ⟨[], rfl⟩
  | succ fuel ih =>
    intro l em hlen hsub hinv
    cases l with
    | nil => exact ⟨[], rfl⟩
    | cons a tl =>
      have hmem : (a :: tl) ∈ mods.sublists := List.mem_sublists.mpr hsub
      have hall := List.all_eq_true.mp hacyc _ hmem
      have hany : (a :: tl).any (fun m => minimalInB deps (a :: tl) m) = true := by
        simpa using hall
      obtain ⟨m, hm, hmin⟩ := List.any_eq_true.mp hany
      have hready : readyB deps em m = true := by
        apply List.all_eq_true.mpr
        intro d hd
        rcases hinv m hm d hd with hem | hname
        · simpa using hem
        · exfalso
          rcases List.mem_map.mp hname with ⟨b, hb, hbname⟩
          have hmb := List.all_eq_true.mp hmin b hb
          rw [hbname] at hmb
          simp only [Bool.not_eq_true'] at hmb
          have h3 : (depsOf deps m.name).contains d = true := List.elem_eq_true_of_mem hd
          rw [h3] at hmb
          cases hmb
      obtain ⟨mm, rest, hpr⟩ := pickReady_isSome_of_ready ⟨m, hm, hready⟩
      obtain ⟨hreadymm, pre, suf, hl, hrest⟩ := pickReady_eq_some hpr
      have hlen2 : rest.length ≤ fuel := by
        have h1 : (a :: tl).length = rest.length + 1 := by
          rw [hl, hrest]; simp; omega
        have h2 : (a :: tl).length ≤ fuel + 1 := hlen
        omega
      have hsub2 : rest.Sublist mods := by
        have h1 : rest.Sublist (a :: tl) := by
          rw [hl, hrest]
          exact (List.sublist_cons_self mm suf).append_left pre
        exact h1.trans hsub
      have hinv2 : ∀ x ∈ rest, ∀ d ∈ depsOf deps x.name,
          d ∈ (mm.name :: em) ∨ d ∈ rest.map (fun e => e.name) := by
        intro x hx d hd
        have hx2 : x ∈ a :: tl := by
          rw [hl]
          rw [hrest] at hx
          rcases List.mem_append.mp hx with h | h
          · exact List.mem_append.mpr (Or.inl h)
          · exact List.mem_append.mpr (Or.inr (List.mem_cons_of_mem mm h))
        rcases hinv x hx2 d hd with hem | hname
        · exact Or.inl (List.mem_cons_of_mem _ hem)
        · rcases List.mem_map.mp hname with ⟨b, hb, hbname⟩
          rw [hl] at hb
          rcases List.mem_append.mp hb with h | h
          · refine Or.inr (List.mem_map.mpr ⟨b, ?_, hbname⟩)
            rw [hrest]
            exact List.mem_append.mpr (Or.inl h)
          · rcases List.mem_cons.mp h with rfl | h2
            · exact Or.inl (hbname ▸ List.mem_cons_self _ _)
            · refine Or.inr (List.mem_map.mpr ⟨b, ?_, hbname⟩)
              rw [hrest]
              exact List.mem_append.mpr (Or.inr h2)
      obtain ⟨out2, hout2⟩ := ih rest (mm.name :: em) hlen2 hsub2 hinv2
      exact ⟨mm :: out2, by simp only [sortGo, hpr, hout2]⟩

/-! Lemmas about the ordered-dict upsert. -/

theorem mem_upsertBy {α : Type} (key : α → String) (m : List α) (v x : α)
    (h : x ∈ upsertBy key m v) : x ∈ m ∨ x = v := by
  unfold upsertBy at h
  by_cases hc : m.any (fun w => key w == key v) = true
  · rw [if_pos hc] at h
    rcases List.mem_map.mp h with ⟨w, hw, hwx⟩
    by_cases hkw : (key w == key v) = true
    · rw [if_pos hkw] at hwx; exact Or.inr hwx.symm
    · rw [if_neg hkw] at hwx; exact Or.inl (hwx ▸ hw)
  · rw [if_neg hc] at h
    rcases List.mem_append.mp h with h2 | h2
    · exact Or.inl h2
    · exact Or.inr (List.mem_singleton.mp h2)

theorem mem_foldl_upsertBy {α : Type} (key : α → String) :
    ∀ (L acc : List α) (x : α), x ∈ L.foldl (upsertBy key) acc → x ∈ acc ∨ x ∈ L := by
  intro L
  induction L with
  | nil => intro acc x h; exact Or.inl h
  | cons v L2 ih =>
    intro acc x h
    rcases ih (upsertBy key acc v) x h with h2 | h2
    · rcases mem_upsertBy key acc v x h2 with h3 | h3
      · exact Or.inl h3
      · exact Or.inr (List.mem_cons.mpr (Or.inl h3))
    · exact Or.inr (List.mem_cons_of_mem v h2)

theorem find?_map_replace_of_any {α : Type} (key : α → String) (t : String) (v : α)
    (ht : (key v == t) = true) :
    ∀ m : List α, m.any (fun w => key w == key v) = true →
      (m.map (fun w => if key w == key v then v else w)).find? (fun x => key x == t) = some v := by
  intro m
  induction m with
  | nil => intro h; simp at h
  | cons w m2 ih =>
    intro h
    by_cases hw : (key w == key v) = true
    · simp only [List.map_cons, if_pos hw, List.find?_cons, ht]
    · simp only [List.map_cons, if_neg hw, List.find?_cons]
      have hwt : (key w == t) = false := by
        have h1 : key v = t := eq_of_beq ht
        by_cases h2 : (key w == t) = true
        · exact absurd (by rw [h1]; exact (eq_of_beq h2) ▸ beq_self_eq_true (key w)) hw
        · exact Bool.not_eq_true _ ▸ eq_false_of_ne_true h2
      rw [hwt]
      apply ih
      have h3 := List.any_eq_true.mp h
      rcases h3 with ⟨u, hu, hupred⟩
      rcases List.mem_cons.mp hu with rfl | hu2
      · exact absurd hupred hw
      · exact List.any_eq_true.mpr ⟨u, hu2, hupred⟩

theorem find?_map_replace_of_ne {α : Type} (key : α → String) (t : String) (v : α)
    (ht : (key v == t) = false) :
    ∀ m : List α,
      (m.map (fun w => if key w == key v then v else w)).find? (fun x => key x == t) =
        m.find? (fun x => key x == t) := by
  intro m
  induction m with
  | nil => rfl
  | cons w m2 ih =>
    by_cases hw : (key w == key v) = true
    · have hwt : (key w == t) = false := by
        have h1 : key w = key v := eq_of_beq hw
        rw [h1]; exact ht
      simp only [List.map_cons, if_pos hw, List.find?_cons, ht, hwt]
      exact ih
    · simp only [List.map_cons, if_neg hw, List.find?_cons]
      cases hwt : (key w == t) with
      | true => rfl
      | false => exact ih

theorem find?_append_of_none {α : Type} (p : α → Bool) :
    ∀ (m l : List α), m.find? p = none → (m ++ l).find? p = l.find? p := by
  intro m
  induction m with
  | nil => intro l _; rfl
  | cons w m2 ih =>
    intro l h
    rw [List.cons_append]
    simp only [List.find?_cons] at h ⊢
    cases hw : p w with
    | true => rw [hw] at h; cases h
    | false => rw [hw] at h; exact ih l h

theorem find?_append_of_some {α : Type} (p : α → Bool) {x : α} :
    ∀ (m l : List α), m.find? p = some x → (m ++ l).find? p = some x := by
  intro m
  induction m with
  | nil => intro l h; cases h
  | cons w m2 ih =>
    intro l h
    rw [List.cons_append]
    simp only [List.find?_cons] at h ⊢
    cases hw : p w with
    | true => rw [hw] at h; exact h
    | false => rw [hw] at h; exact ih l h

theorem find?_upsertBy {α : Type} (key : α → String) (t : String) (m : List α) (v : α) :
    (upsertBy key m v).find? (fun x => key x == t) =
      if (key v == t) = true then some v else m.find? (fun x => key x == t) := by
  unfold upsertBy
  by_cases hany : m.any (fun w => key w == key v) = true
  · rw [if_pos hany]
    by_cases ht : (key v == t) = true
    · rw [if_pos ht]
      exact find?_map_replace_of_any key t v ht m hany
    · rw [if_neg ht]
      exact find?_map_replace_of_ne key t v (eq_false_of_ne_true ht) m
  · rw [if_neg hany]
    by_cases ht : (key v == t) = true
    · rw [if_pos ht]
      have hnone : m.find? (fun x => key x == t) = none := by
        cases hf : m.find? (fun x => key x == t) with
        | none => rfl
        | some w =>
          exfalso
          have hwp := List.find?_some hf
          have hwm := List.mem_of_find?_eq_some hf
          apply hany
          apply List.any_eq_true.mpr
          refine ⟨w, hwm, ?_⟩
          have h1 : key w = t := eq_of_beq hwp
          have h2 : key v = t := eq_of_beq ht
          rw [h1, ← h2]
          exact beq_self_eq_true (key v)
      rw [find?_append_of_none _ m [v] hnone]
      simp only [List.find?_cons, ht]
    · rw [if_neg ht]
      cases hf : m.find? (fun x => key x == t) with
      | some w => exact find?_append_of_some _ m [v] hf
      | none =>
        rw [find?_append_of_none _ m [v] hf]
        simp only [List.find?_cons, eq_false_of_ne_true ht, List.find?_nil]

theorem getLast?_cons_or {α : Type} (a : α) (l : List α) :
    (a :: l).getLast? = (l.getLast?).or (some a) := by
  induction l with
  | nil => rfl
  | cons b t ih =>
    rw [List.getLast?_cons_cons]
    have hne : (b :: t) ≠ [] := by simp
    obtain ⟨y, hy⟩ := Option.isSome_iff_exists.mp (List.getLast?_isSome.mpr hne)
    rw [hy]
    rfl

theorem find?_foldl_upsertBy {α : Type} (key : α → String) (t : String) :
    ∀ (L acc : List α),
      (L.foldl (upsertBy key) acc).find? (fun x => key x == t) =
        ((L.filter (fun x => key x == t)).getLast?).or
          (acc.find? (fun x => key x == t)) := by
  intro L
  induction L with
  | nil => intro acc; rfl
  | cons v L2 ih =>
    intro acc
    rw [List.foldl_cons, ih (upsertBy key acc v), find?_upsertBy]
    by_cases ht : (key v == t) = true
    · rw [if_pos ht]
      rw [List.filter_cons, if_pos ht, getLast?_cons_or]
      cases hgl : (L2.filter (fun x => key x == t)).getLast? with
      | none => rfl
      | some y => rfl
    · rw [if_neg ht]
      rw [List.filter_cons, if_neg ht]

/-! Lemmas connecting the built dependency dict to the entries. -/

theorem depsOf_mem_names {mods : List ModEntry} {n d : String}
    (h : d ∈ depsOf (module_dependencies mods) n) :
    d ∈ mods.map (fun m => m.name) := by
  unfold depsOf at h
  cases hf : (module_dependencies mods).find? (fun kv => kv.1 == n) with
  | none => rw [hf] at h; exact absurd h (List.not_mem_nil d)
  | some kv =>
    rw [hf] at h
    have hmem := List.mem_of_find?_eq_some hf
    rcases mem_foldl_upsertBy Prod.fst _ [] kv hmem with h2 | h2
    · cases h2
    · rcases List.mem_map.mp h2 with ⟨m0, hm0, hkv⟩
      rw [← hkv] at h
      unfold extract_dependencies at h
      rcases List.mem_map.mp h with ⟨b, hb, hbname⟩
      exact hbname ▸ List.mem_map.mpr ⟨b, List.mem_of_mem_filter hb, rfl⟩

theorem name_unique_of_nodup {mods : List ModEntry}
    (hnd : (mods.map (fun m => m.name)).Nodup)
    {x y : ModEntry} (hx : x ∈ mods) (hy : y ∈ mods) (h : x.name = y.name) : x = y := by
  induction mods with
  | nil => cases hx
  | cons m rest ih =>
    rw [List.map_cons, List.nodup_cons] at hnd
    obtain ⟨hhead, hnd2⟩ := hnd
    rcases List.mem_cons.mp hx with rfl | hx2
    · rcases List.mem_cons.mp hy with rfl | hy2
      · rfl
      · exfalso
        exact hhead (h ▸ List.mem_map.mpr ⟨y, hy2, rfl⟩)
    · rcases List.mem_cons.mp hy with rfl | hy2
      · exfalso
        exact hhead (h ▸ List.mem_map.mpr ⟨x, hx2, rfl⟩)
      · exact ih hnd2 hx2 hy2

theorem filter_name_singleton {mods : List ModEntry} {a : ModEntry}
    (hnd : (mods.map (fun m => m.name)).Nodup) (ha : a ∈ mods) :
    mods.filter (fun m => m.name == a.name) = [a] := by
  induction mods with
  | nil => cases ha
  | cons m rest ih =>
    rw [List.map_cons, List.nodup_cons] at hnd
    obtain ⟨hhead, hnd2⟩ := hnd
    rcases List.mem_cons.mp ha with rfl | ha2
    · rw [List.filter_cons, if_pos (beq_self_eq_true a.name)]
      have hrest : rest.filter (fun m => m.name == a.name) = [] := by
        apply List.filter_eq_nil_iff.mpr
        intro b hb hpred
        have hb2 : b.name = a.name := eq_of_beq hpred
        exact hhead (hb2 ▸ List.mem_map.mpr ⟨b, hb, rfl⟩)
      rw [hrest]
    · have hmn : (m.name == a.name) = false := by
        by_cases h2 : (m.name == a.name) = true
        · exfalso
          have h3 : m.name ∈ rest.map (fun m => m.name) := by
            rw [eq_of_beq h2]
            exact List.mem_map.mpr ⟨a, ha2, rfl⟩
          exact hhead h3
        · exact eq_false_of_ne_true h2
      rw [List.filter_cons, if_neg (by rw [hmn]; exact Bool.false_ne_true)]
      exact ih hnd2 ha2

theorem depsOf_module_dependencies {mods : List ModEntry} {a : ModEntry}
    (hnd : (mods.map (fun m => m.name)).Nodup) (ha : a ∈ mods) :
    depsOf (module_dependencies mods) a.name = extract_dependencies a mods := by
  unfold depsOf module_dependencies
  rw [find?_foldl_upsertBy]
  have hfm : (mods.map (fun m => (m.name, extract_dependencies m mods))).filter
      (fun kv => kv.1 == a.name) =
      (mods.filter (fun m => m.name == a.name)).map
        (fun m => (m.name, extract_dependencies m mods)) := by
    rw [List.filter_map]
    rfl
  rw [hfm, filter_name_singleton hnd ha]
  rfl

/-- C1 helper: full soundness and completeness packaged for the concrete
dependency dict scrape_func builds. -/
theorem sort_modules_ok_of_acyclic {mods : List ModEntry}
    (hacyc : acyclicOnB mods (module_dependencies mods) = true) :
    ∃ out, sort_modules mods (module_dependencies mods) = .ok out := by
  apply sortGo_complete hacyc mods.length mods [] (Nat.le_refl _) (List.Sublist.refl mods)
  intro x _ d hd
  exact Or.inr (depsOf_mem_names hd)

/-- C1: for every acyclic local dependency graph (over entries with distinct
names), the dependency sorter succeeds and returns a linear order of the
local SymbolReference entries — a permutation of the input — in which each
entry appears after every other local entry whose name occurs as a substring
of that entry's sourceText. -/
theorem sort_modules_topological (mods : List ModEntry)
    (hnodup : (mods.map (fun m => m.name)).Nodup)
    (hacyc : acyclicOnB mods (module_dependencies mods) = true) :
    ∃ out, sort_modules mods (module_dependencies mods) = .ok out ∧ out.Perm mods ∧
      ∀ (i j : Nat) (hi : i < out.length) (hj : j < out.length),
        (out.get ⟨i, hi⟩).name ≠ (out.get ⟨j, hj⟩).name →
        strContains ((out.get ⟨i, hi⟩).source.getD "") ((out.get ⟨j, hj⟩).name) = true →
        j < i := by
  obtain ⟨out, hout⟩ := sort_modules_ok_of_acyclic hacyc
  obtain ⟨hperm, hchain⟩ := sortGo_sound mods.length [] mods out hout
  refine ⟨out, hout, hperm, ?_⟩
  intro i j hi hj hne hsubstr
  have hamem : out.get ⟨i, hi⟩ ∈ mods := hperm.mem_iff.mp (List.get_mem out i hi)
  have hbmem : out.get ⟨j, hj⟩ ∈ mods := hperm.mem_iff.mp (List.get_mem out j hj)
  have hdep : (out.get ⟨j, hj⟩).name ∈ extract_dependencies (out.get ⟨i, hi⟩) mods := by
    unfold extract_dependencies
    apply List.mem_map.mpr
    refine ⟨out.get ⟨j, hj⟩, ?_, rfl⟩
    apply List.mem_filter.mpr
    refine ⟨hbmem, ?_⟩
    rw [Bool.and_eq_true]
    refine ⟨?_, hsubstr⟩
    rw [Bool.not_eq_true']
    exact beq_eq_false_iff_ne.mpr (fun h => hne h.symm)
  have hdep2 : (out.get ⟨j, hj⟩).name ∈
      depsOf (module_dependencies mods) ((out.get ⟨i, hi⟩).name) := by
    rw [depsOf_module_dependencies hnodup hamem]
    exact hdep
  rcases topoChain_position out [] hchain i hi _ hdep2 with hmem | ⟨k, hk, hki, hkname⟩
  · cases hmem
  · have hnd2 : (out.map (fun e => e.name)).Nodup :=
      ((hperm.map (fun e => e.name)).nodup_iff).mpr hnodup
    have hout_nodup : out.Nodup := hnd2.of_map
    have hkj : out.get ⟨k, hk⟩ = out.get ⟨j, hj⟩ := by
      apply name_unique_of_nodup hnodup (hperm.mem_iff.mp (List.get_mem out k hk)) hbmem
      exact hkname
    have hfin : (⟨k, hk⟩ : Fin out.length) = ⟨j, hj⟩ :=
      (List.Nodup.get_inj_iff hout_nodup).mp hkj
    have hkj2 : k = j := congrArg Fin.val hfin
    omega

/-- C1 witness: a concrete two-entry acyclic graph (beta's source mentions
alpha) sorts successfully and topologically. -/
theorem sort_modules_topological_witness :
    ∃ out, sort_modules
        [ModEntry.mk "beta" (some "pkg.b") "selective" true
           (some "def beta():\n    return alpha()\n") true,
         ModEntry.mk "alpha" (some "pkg.a") "selective" true
           (some "def alpha():\n    return 1\n") true]
        (module_dependencies
          [ModEntry.mk "beta" (some "pkg.b") "selective" true
             (some "def beta():\n    return alpha()\n") true,
           ModEntry.mk "alpha" (some "pkg.a") "selective" true
             (some "def alpha():\n    return 1\n") true]) = .ok out ∧
      out.Perm
        [ModEntry.mk "beta" (some "pkg.b") "selective" true
           (some "def beta():\n    return alpha()\n") true,
         ModEntry.mk "alpha" (some "pkg.a") "selective" true
           (some "def alpha():\n    return 1\n") true] ∧
      ∀ (i j : Nat) (hi : i < out.length) (hj : j < out.length),
        (out.get ⟨i, hi⟩).name ≠ (out.get ⟨j, hj⟩).name →
        strContains ((out.get ⟨i, hi⟩).source.getD "") ((out.get ⟨j, hj⟩).name) = true →
        j < i :=
  sort_modules_topological _ (by decide) (by decide)

/-- C2: for every local dependency graph (over entries with distinct names)
that contains a cycle, the sorter terminates — it is a total function — and
reports the CyclicLocalDependency error to the caller instead of looping or
returning a truncated list. -/
theorem sort_modules_cycle_error (mods : List ModEntry)
    (hnodup : (mods.map (fun m => m.name)).Nodup)
    (hcyc : acyclicOnB mods (module_dependencies mods) = false) :
    sort_modules mods (module_dependencies mods) = .error "CyclicLocalDependency" := by
  cases hres : sort_modules mods (module_dependencies mods) with
  | error e => rw [sortGo_error_msg mods.length [] mods e hres]
  | ok out =>
    exfalso
    obtain ⟨hperm, hchain⟩ := sortGo_sound mods.length [] mods out hres
    have htrue : acyclicOnB mods (module_dependencies mods) = true := by
      unfold acyclicOnB
      apply List.all_eq_true.mpr
      intro S hS
      rcases S with _ | ⟨s, S2⟩
      · rfl
      · have hsubl := List.mem_sublists.mp hS
        have hsub : ∀ b ∈ s :: S2, b ∈ out := fun b hb => hperm.mem_iff.mpr (hsubl.subset hb)
        have hnd2 : (out.map (fun e => e.name)).Nodup :=
          ((hperm.map (fun e => e.name)).nodup_iff).mpr hnodup
        obtain ⟨m, hm, hmin⟩ := topoChain_minimal out [] hchain hnd2 (s :: S2)
          (by simp) hsub (by intro b _ hmem; cases hmem)
        have hany2 : (s :: S2).any
            (fun m => minimalInB (module_dependencies mods) (s :: S2) m) = true := by
          apply List.any_eq_true.mpr
          refine ⟨m, hm, ?_⟩
          apply List.all_eq_true.mpr
          intro b hb
          rw [Bool.not_eq_true']
          cases hc : (depsOf (module_dependencies mods) m.name).contains b.name with
          | false => rfl
          | true => exact absurd (List.mem_of_elem_eq_true hc) (hmin b hb)
        rw [hany2, Bool.or_true]
    rw [htrue] at hcyc
    cases hcyc

/-- C2 witness: two local functions whose sources mention each other form a
cycle, and the sorter reports the cyclic-dependency error on them. -/
theorem sort_modules_cycle_error_witness :
    sort_modules
        [ModEntry.mk "funcA" (some "pkg.a") "selective" true
           (some "def funcA():\n    return funcB()\n") true,
         ModEntry.mk "funcB" (some "pkg.b") "selective" true
           (some "def funcB():\n    return funcA()\n") true]
        (module_dependencies
          [ModEntry.mk "funcA" (some "pkg.a") "selective" true
             (some "def funcA():\n    return funcB()\n") true,
           ModEntry.mk "funcB" (some "pkg.b") "selective" true
             (some "def funcB():\n    return funcA()\n") true]) =
      .error "CyclicLocalDependency" :=
  sort_modules_cycle_error _ (by decide) (by decide)

/-- C5: evaluation of get_obj_dependencies on a binding whose object lives in
a local module, is not a TypeVar, and has no retrievable source text: the
inspect.getsource call raises and the error propagates out of the function
instead of degrading to a sourceless reference.  This exhibits the failing
input for the claim that classification never raises. -/
theorem get_obj_dependencies_raises_on_missing_source :
    get_obj_dependencies
        [("helper", PyObj.objRef 2 "pkg.helper" false false none
            (ModuleState.present 1 true []))] "x = helper()" =
      .error "OSError" := by rfl

/-- C6: when the identical object is bound under two different names that
both occur in the scanned body, processing the scope equals processing only
the first binding — the second is skipped because the processed set tracks
object identity — and for a module object the result is exactly one
SymbolReference keyed by the first name. -/
theorem get_obj_dependencies_object_identity_dedup (n1 n2 fnCode : String) (o : PyObj)
    (h1 : strContains fnCode n1 = true) (h2 : strContains fnCode n2 = true)
    (hp : strStarts n1 "__" = false) :
    get_obj_dependencies [(n1, o), (n2, o)] fnCode =
      get_obj_dependencies [(n1, o)] fnCode ∧
    (∀ (oid : Nat) (pyNm : String) (isLoc : Bool), o = PyObj.pymodule oid pyNm isLoc →
      get_obj_dependencies [(n1, o), (n2, o)] fnCode =
        .ok ([ModEntry.mk n1 (some pyNm) "standard" isLoc none true], [])) := by
  have hc1 : (strContains fnCode n1 && !(([] : List Nat).contains o.oid)) = true := by
    rw [h1]; rfl
  have heq : godBindings [(n1, o), (n2, o)] fnCode [] =
      godBindings [(n1, o)] fnCode [] := by
    simp only [godBindings, if_pos hc1, if_neg (by simp [hp] :
      ¬ strStarts n1 "__" = true)]
    cases hobj : godObj n1 o fnCode ([] ++ [o.oid]) with
    | error e => rfl
    | ok triple =>
      rcases triple with ⟨cms, cvs, add1⟩
      have hcont : (([] ++ [o.oid] ++ add1).contains o.oid) = true :=
        List.elem_eq_true_of_mem (by simp)
      have hc2 : (strContains fnCode n2 && !(([] ++ [o.oid] ++ add1).contains o.oid))
          = false := by
        rw [hcont, h2]; rfl
      simp only [godBindings, if_neg (by simp [hc2] :
        ¬ (strContains fnCode n2 && !(([] ++ [o.oid] ++ add1).contains o.oid)) = true)]
  constructor
  · unfold get_obj_dependencies
    rw [heq]
  · intro oid pyNm isLoc ho
    unfold get_obj_dependencies
    rw [heq]
    subst ho
    simp only [godBindings, if_pos hc1, if_neg (by simp [hp] :
      ¬ strStarts n1 "__" = true), godObj]
    simp

/-- C6 witness: a module object bound as both np and numpy in a body using
both names yields the single entry keyed np. -/
theorem get_obj_dependencies_object_identity_dedup_witness :
    (get_obj_dependencies
        [("np", PyObj.pymodule 7 "numpy" false), ("numpy", PyObj.pymodule 7 "numpy" false)]
        "return np.sum(numpy.eye(2))" =
      get_obj_dependencies [("np", PyObj.pymodule 7 "numpy" false)]
        "return np.sum(numpy.eye(2))") ∧
    (∀ (oid : Nat) (pyNm : String) (isLoc : Bool),
      PyObj.pymodule 7 "numpy" false = PyObj.pymodule oid pyNm isLoc →
      get_obj_dependencies
          [("np", PyObj.pymodule 7 "numpy" false), ("numpy", PyObj.pymodule 7 "numpy" false)]
          "return np.sum(numpy.eye(2))" =
        .ok ([ModEntry.mk "np" (some pyNm) "standard" isLoc none true], [])) :=
  get_obj_dependencies_object_identity_dedup "np" "numpy" _ _ (by decide) (by decide) (by decide)

/-- C7: a binding whose runtime type name contains Union yields exactly one
union-kind variables entry whose synthesized line reconstructs the union
from the member display names, plus one selective non-local SymbolReference
per member that is a class. -/
theorem get_obj_dependencies_union_entry (nm fnCode : String) (oid : Nat)
    (args : List UnionArg)
    (h1 : strContains fnCode nm = true) (hp : strStarts nm "__" = false) :
    get_obj_dependencies [(nm, PyObj.unionTy oid args)] fnCode =
      .ok ((args.filter (fun a => a.isClass)).map
             (fun a => ModEntry.mk (unionArgDisplay a) (some a.argModule)
               "selective" false none true),
           [VarEntry.unionVar nm ("Union[" ++ unionArgsStr args ++ "]")]) := by
  have hc1 : (strContains fnCode nm && !(([] : List Nat).contains
      (PyObj.unionTy oid args).oid)) = true := by
    rw [h1]; rfl
  unfold get_obj_dependencies
  simp only [godBindings, if_pos hc1, if_neg (by simp [hp] :
    ¬ strStarts nm "__" = true), godObj]
  simp

/-- C7 witness: a union with one class member and one non-class member. -/
theorem get_obj_dependencies_union_entry_witness :
    get_obj_dependencies
        [("MaybeTask", PyObj.unionTy 3
            [UnionArg.mk (some "Task") "<class Task>" true "app.tasks",
             UnionArg.mk none "None" false "builtins"])] "def f(t: MaybeTask): pass" =
      .ok ([ModEntry.mk "Task" (some "app.tasks") "selective" false none true],
           [VarEntry.unionVar "MaybeTask" "Union[Task, None]"]) :=
  get_obj_dependencies_union_entry "MaybeTask" _ 3 _ (by decide) (by decide)

/-- C8 counterexample: a binding to a module object of a local module
produces a SymbolReference with isLocal true, standard kind, and no
sourceText at all — refuting the claim that every local entry except a bare
TypeVar carries non-empty sourceText. -/
theorem local_standard_module_entry_lacks_source :
    get_obj_dependencies [("utils", PyObj.pymodule 1 "utils" true)]
        "import utils\nreturn utils.go()" =
      .ok ([ModEntry.mk "utils" (some "utils") "standard" true none true], []) := by rfl

mutual
/-- Whether the scanned scope, at any depth of the dependency expansion,
binds the given name to a bare TypeVar object. -/
def bindingsHaveTV : List (String × PyObj) → String → Bool
  | [], _ => false
  | (n, o) :: rest, nm => objHasTV n o nm || bindingsHaveTV rest nm

/-- Whether this binding is a TypeVar with the given name, or its owning
module's dict contains such a binding. -/
def objHasTV : String → PyObj → String → Bool
  | n, PyObj.objRef _ _ _ isTV _ ms, nm => (n == nm && isTV) || msHasTV ms nm
  | _, _, _ => false

/-- TypeVar-binding search through a sys.modules lookup result. -/
def msHasTV : ModuleState → String → Bool
  | ModuleState.absent, _ => false
  | ModuleState.present _ _ dict, nm => bindingsHaveTV dict nm
end

mutual
/-- The introspection contract over a scope: wherever the model records a
retrievable source text (inspect.getsource succeeding), that text is
non-empty — getsource returns at least start: the definition line. -/
def bindingsSrcOk : List (String × PyObj) → Bool
  | [] => true
  | (_, o) :: rest => objSrcOk o && bindingsSrcOk rest

/-- The introspection contract for one object and its owning module. -/
def objSrcOk : PyObj → Bool
  | PyObj.objRef _ _ _ _ src ms =>
    (match src with
     | none => true
     | some s => !(s == "")) && msSrcOk ms
  | _ => true

/-- The introspection contract through a sys.modules lookup result. -/
def msSrcOk : ModuleState → Bool
  | ModuleState.absent => true
  | ModuleState.present _ _ dict => bindingsSrcOk dict
end

/-- The source invariant that does hold of every entry produced from a
scope: a local entry is a standard whole-module reference with no
sourceText, or is selective and carries non-empty sourceText, or is
selective with empty sourceText and then the scope binds that entry's name
to a bare TypeVar — empty sourceText occurs exactly for type-variable
declarations. -/
def srcInv (bs : List (String × PyObj)) (e : ModEntry) : Prop :=
  e.is_local = true →
    (e.impType = "standard" ∧ e.source = none) ∨
    (e.impType = "selective" ∧ e.source = some "" ∧ bindingsHaveTV bs e.name = true) ∨
    (e.impType = "selective" ∧ ∃ s, e.source = some s ∧ s ≠ "")

/-- The same invariant for the entries one classified binding produces. -/
def srcInvObj (nm : String) (o : PyObj) (e : ModEntry) : Prop :=
  e.is_local = true →
    (e.impType = "standard" ∧ e.source = none) ∨
    (e.impType = "selective" ∧ e.source = some "" ∧ objHasTV nm o e.name = true) ∨
    (e.impType = "selective" ∧ ∃ s, e.source = some s ∧ s ≠ "")

theorem srcInv_cons_of_rest {nm : String} {obj : PyObj}
    {rest : List (String × PyObj)} {e : ModEntry}
    (h : srcInv rest e) : srcInv ((nm, obj) :: rest) e := by
  intro hl
  rcases h hl with h1 | ⟨h1, h2, h3⟩ | h1
  · exact Or.inl h1
  · exact Or.inr (Or.inl ⟨h1, h2, by simp [bindingsHaveTV, h3]⟩)
  · exact Or.inr (Or.inr h1)

theorem srcInv_cons_of_obj {nm : String} {obj : PyObj}
    {rest : List (String × PyObj)} {e : ModEntry}
    (h : srcInvObj nm obj e) : srcInv ((nm, obj) :: rest) e := by
  intro hl
  rcases h hl with h1 | ⟨h1, h2, h3⟩ | h1
  · exact Or.inl h1
  · exact Or.inr (Or.inl ⟨h1, h2, by simp [bindingsHaveTV, h3]⟩)
  · exact Or.inr (Or.inr h1)

theorem srcInvObj_of_dict {nm : String} {objId : Nat} {modNm : String}
    {isC isTV : Bool} {src : Option String} {mid : Nat} {mLoc : Bool}
    {dict : List (String × PyObj)} {e : ModEntry}
    (h : srcInv dict e) :
    srcInvObj nm (PyObj.objRef objId modNm isC isTV src
      (ModuleState.present mid mLoc dict)) e := by
  intro hl
  rcases h hl with h1 | ⟨h1, h2, h3⟩ | h1
  · exact Or.inl h1
  · exact Or.inr (Or.inl ⟨h1, h2, by simp [objHasTV, msHasTV, h3]⟩)
  · exact Or.inr (Or.inr h1)

/-- C8 amended: under the introspection contract (retrievable source text is
never empty), every isLocal entry produced by get_obj_dependencies is either
standard-kind with no sourceText (a local whole-module import), or
selective-kind with non-empty sourceText, or selective-kind with empty
sourceText in which case the scanned scope binds that name to a bare
TypeVar — i.e. sourceText is present on every local selective entry and
empty exactly for type-variable declarations. -/
theorem get_obj_dependencies_source_invariant (bs : List (String × PyObj))
    (fc : String) (p : List Nat) (hsrc : bindingsSrcOk bs = true) :
    ∀ ms vs add, godBindings bs fc p = .ok (ms, vs, add) → ∀ e ∈ ms, srcInv bs e := by
  refine godBindings.induct
    (fun bs fc p => bindingsSrcOk bs = true →
      ∀ ms vs add, godBindings bs fc p = .ok (ms, vs, add) → ∀ e ∈ ms, srcInv bs e)
    (fun nm o fc p => objSrcOk o = true →
      ∀ ms vs add, godObj nm o fc p = .ok (ms, vs, add) → ∀ e ∈ ms, srcInvObj nm o e)
    ?_ ?_ ?_ ?_ ?_ ?_ ?_ ?_ ?_ ?_ ?_ ?_ ?_ ?_ ?_ ?_ bs fc p hsrc
  · intro nm objId args x x2 hok ms vs add h e he
    simp only [godObj] at h
    cases Except.ok.inj h
    rcases List.mem_map.mp he with ⟨a, _, hae⟩
    intro hl
    rw [← hae] at hl
    simp at hl
  · intro nm objId r x x2 hok ms vs add h e he
    simp only [godObj] at h
    cases Except.ok.inj h
    cases he
  · intro nm objId pyNm isLoc x x2 hok ms vs add h e he
    simp only [godObj] at h
    cases Except.ok.inj h
    rcases List.mem_singleton.mp he with rfl
    intro _
    exact Or.inl ⟨rfl, rfl⟩
  · intro nm objId modNm isC isTV src x p2 hok ms vs add h e he
    simp only [godObj] at h
    cases Except.ok.inj h
    cases he
  · intro nm objId modNm isC isTV src x p2 mid mLoc dict hmid hok ms vs add h e he
    simp only [godObj, if_pos hmid] at h
    cases Except.ok.inj h
    cases he
  · intro nm objId modNm isC src x p2 mid dict hmid hok ms vs add h e he
    simp only [godObj, if_neg hmid] at h
    cases Except.ok.inj h
    rcases List.mem_singleton.mp he with rfl
    intro _
    exact Or.inr (Or.inl ⟨rfl, rfl, by simp [objHasTV]⟩)
  · intro nm objId modNm isC isTV x p2 mid dict hmid hTV hok ms vs add h e he
    simp only [godObj, if_neg hmid, if_neg hTV] at h
    cases h
  · intro nm objId modNm isC isTV x p2 mid dict hmid hTV s e2 hdict ih hok ms vs add h e he
    simp only [godObj, if_neg hmid, if_neg hTV, hdict] at h
    cases h
  · intro nm objId modNm isC isTV x p2 mid dict hmid hTV s dms dvs addD hdict ih hok
      ms vs add h e he
    simp only [objSrcOk, msSrcOk, Bool.and_eq_true] at hok
    obtain ⟨hs, hdictOk⟩ := hok
    have hsne : s ≠ "" := by
      rw [Bool.not_eq_true'] at hs
      exact beq_eq_false_iff_ne.mp hs
    simp only [godObj, if_neg hmid, if_neg hTV, hdict] at h
    cases Except.ok.inj h
    rcases List.mem_append.mp he with hd | hd
    · exact srcInvObj_of_dict (ih hdictOk dms dvs addD hdict e hd)
    · rcases List.mem_singleton.mp hd with rfl
      intro _
      exact Or.inr (Or.inr ⟨rfl, s, rfl, hsne⟩)
  · intro nm objId modNm isC isTV src x p2 mid mLoc dict hmid hLoc hok ms vs add h e he
    simp only [godObj, if_neg hmid, if_neg hLoc] at h
    cases Except.ok.inj h
    rcases List.mem_singleton.mp he with rfl
    intro hl
    cases hl
  · intro x x2 hok ms vs add h e he
    simp only [godBindings] at h
    cases Except.ok.inj h
    cases he
  · intro nm obj rest fc2 p2 hcond hdund ih hok ms vs add h e he
    simp only [bindingsSrcOk, Bool.and_eq_true] at hok
    simp only [godBindings, if_pos hcond, if_pos hdund] at h
    exact srcInv_cons_of_rest (ih hok.2 ms vs add h e he)
  · intro nm obj rest fc2 p2 hcond hdund e2 hobj ih hok ms vs add h e he
    simp only [godBindings, if_pos hcond, if_neg hdund, hobj] at h
    cases h
  · intro nm obj rest fc2 p2 hcond hdund cms cvs add1 hobj e2 hrest ihobj ihrest hok
      ms vs add h e he
    simp only [godBindings, if_pos hcond, if_neg hdund, hobj, hrest] at h
    cases h
  · intro nm obj rest fc2 p2 hcond hdund cms cvs add1 hobj ms2 vs2 add2 hrest ihobj ihrest
      hok ms vs add h e he
    simp only [bindingsSrcOk, Bool.and_eq_true] at hok
    simp only [godBindings, if_pos hcond, if_neg hdund, hobj, hrest] at h
    cases Except.ok.inj h
    rcases List.mem_append.mp he with hd | hd
    · exact srcInv_cons_of_obj (ihobj hok.1 cms cvs add1 hobj e hd)
    · exact srcInv_cons_of_rest (ihrest hok.2 ms2 vs2 add2 hrest e hd)
  · intro nm obj rest fc2 p2 hcond ih hok ms vs add h e he
    simp only [bindingsSrcOk, Bool.and_eq_true] at hok
    simp only [godBindings, if_neg hcond] at h
    exact srcInv_cons_of_rest (ih hok.2 ms vs add h e he)

/-- C8 amended witness: the TypeVar entry of a concrete extraction — local,
selective, with empty sourceText, and the scope indeed binds T to a bare
TypeVar — satisfies the invariant under the introspection contract. -/
theorem get_obj_dependencies_source_invariant_witness :
    srcInv
      [("utils", PyObj.pymodule 1 "utils" true),
       ("T", PyObj.objRef 2 "app.types" false true none (ModuleState.present 3 true []))]
      (ModEntry.mk "T" (some "app.types") "selective" true (some "") true) :=
  get_obj_dependencies_source_invariant
    [("utils", PyObj.pymodule 1 "utils" true),
     ("T", PyObj.objRef 2 "app.types" false true none (ModuleState.present 3 true []))]
    "def f(x: T):\n    return utils.go()" [] (by decide)
    [ModEntry.mk "utils" (some "utils") "standard" true none true,
     ModEntry.mk "T" (some "app.types") "selective" true (some "") true]
    [] [1, 2] (by rfl)
    (ModEntry.mk "T" (some "app.types") "selective" true (some "") true) (by decide)

/-- C3 counterexample: a used constant named logger whose string value ends
with .yaml and whose file exists is not inlined at all — the unconditional
logger filter drops the entry from every returned list, so the claim as
stated fails for that constant name. -/
theorem scrape_func_yaml_inline_logger_dropped :
    scrape_func "def f():\n    return logger" "f" []
        [VarEntry.constant "logger" (PyVal.str "settings.yaml")] "proj"
        (fun _ => true) (fun _ => "\x7b'x': 1\x7d") =
      .ok (ScrapeResult.mk "def f():\n    return logger" "f" [] [] [] [] []) := by rfl

/-- C3 amended: for every used constant not named logger whose string value
ends with the YAML suffix and whose file exists at the conventional
bundle-relative location, scrape_func inlines the constant as an assignment
of the YAML file's parsed contents to the same name, not as the string
literal. -/
theorem scrape_func_yaml_inline (fnSource fnName tgt s cwdName : String)
    (fileEx : String → Bool) (yamlLd : String → String)
    (hs : strEnds s ".yaml" = true)
    (hused : strContains (stripDecorators fnSource) tgt = true)
    (hex : fileEx (yamlPath cwdName s) = true)
    (hlog : tgt ≠ "logger") :
    scrape_func fnSource fnName [] [VarEntry.constant tgt (PyVal.str s)] cwdName
        fileEx yamlLd =
      .ok (ScrapeResult.mk (stripDecorators fnSource) fnName [] [] []
        [ModEntry.mk tgt none "variable" false
          (some (tgt ++ " = " ++ yamlLd (yamlPath cwdName s) ++ "\n")) true] []) := by
  have hlog2 : (tgt == "logger") = false := beq_eq_false_iff_ne.mpr hlog
  simp [scrape_func, godBindings, inlineLoop, sort_modules, sortGo, module_dependencies,
    List.filter, VarEntry.target, hused, hs, hex, hlog2]

/-- C3 amended witness: the spec's own example, a config_path constant whose
settings.yaml parses to a one-entry dict, inlined as the structured
assignment. -/
theorem scrape_func_yaml_inline_witness :
    scrape_func "def f():\n    return config_path" "f" []
        [VarEntry.constant "config_path" (PyVal.str "settings.yaml")] "proj"
        (fun p => p == "src/proj/settings.yaml") (fun _ => "\x7b'x': 1\x7d") =
      .ok (ScrapeResult.mk "def f():\n    return config_path" "f" [] [] []
        [ModEntry.mk "config_path" none "variable" false
          (some "config_path = \x7b'x': 1\x7d\n") true] []) :=
  scrape_func_yaml_inline "def f():\n    return config_path" "f" "config_path"
    "settings.yaml" "proj" _ _ (by decide) (by decide) (by decide) (by decide)

/-- C4: evaluation of scrape_func at the claim's scenario — a used constant
whose string value ends with .yaml but whose file does not exist, as the
first used variable.  The missing else branch leaves the Python class_info
local unassigned, so the append raises UnboundLocalError and the extraction
aborts; no string-literal fallback line is produced. -/
theorem scrape_func_missing_yaml_unbound_local :
    scrape_func "def f():\n    return config_path" "f" []
        [VarEntry.constant "config_path" (PyVal.str "settings.yaml")] "proj"
        (fun _ => false) (fun _ => "") = .error "UnboundLocalError" := by rfl

/-- C9 counterexample: an assignment nested inside a function body is
recorded by scrape_init (ast.walk visits every node, not only the module's
top-level statements), refuting the claim that nested assignments are not
recorded. -/
theorem scrape_init_records_nested_assign :
    scrape_init [Stmt.funcDef "f" [Stmt.assign [Target.name "x"]
        (AValue.const (PyVal.other "1"))]] =
      [VarEntry.constant "x" (PyVal.other "1")] := by
  simp [scrape_init, recordedEntries, walkQ, stmtChildren, assignEntries, targetEntries,
    valueEntry, upsertBy, VarEntry.target]

/-- C9 amended: scrape_init scans every Assign node the breadth-first walk
reaches (nested bodies included); for each name the kept entry is the one of
the walk-order-last recorded assignment to that name — among top-level
statements this is the last top-level assignment, but a later-walked nested
assignment overrides it. -/
theorem scrape_init_last_walk_write_wins (body : List Stmt) (t : String) :
    (scrape_init body).find? (fun v => v.target == t) =
      ((recordedEntries body).filter (fun v => v.target == t)).getLast? := by
  unfold scrape_init
  rw [find?_foldl_upsertBy VarEntry.target t (recordedEntries body) []]
  cases hgl : ((recordedEntries body).filter (fun v => v.target == t)).getLast? with
  | none => rfl
  | some y => rfl

/-- C10: whenever scrape_func returns a bundle, none of the five returned
entry lists contains an entry named logger — the filter runs before the sort
and the partition, and sorting only permutes its input. -/
theorem scrape_func_filters_logger (fnSource fnName : String) (cg : List (String × PyObj))
    (vars0 : List VarEntry) (cwdName : String) (fileEx : String → Bool)
    (yamlLd : String → String) (r : ScrapeResult)
    (h : scrape_func fnSource fnName cg vars0 cwdName fileEx yamlLd = .ok r) :
    ∀ e ∈ r.local_modules ++ r.selective_import_modules ++ r.standard_import_modules ++
        r.variable_modules ++ r.union_modules, e.name ≠ "logger" := by
  simp only [scrape_func] at h
  cases hg : godBindings cg (stripDecorators fnSource) [] with
  | error e2 => simp only [hg] at h; cases h
  | ok triple =>
    rcases triple with ⟨mods0, newVars, add⟩
    simp only [hg] at h
    cases hil : inlineLoop cg cwdName fileEx yamlLd
        ((vars0.filter (fun v => strContains (stripDecorators fnSource) v.target)) ++ newVars)
        mods0 none with
    | error e2 => simp only [hil] at h; cases h
    | ok mods1 =>
      simp only [hil] at h
      cases hsort : sort_modules
          ((mods1.filter (fun m => !(m.name == "logger"))).filter (fun m => m.is_local))
          (module_dependencies ((mods1.filter (fun m => !(m.name == "logger"))).filter
            (fun m => m.is_local))) with
      | error e2 => simp only [hsort] at h; cases h
      | ok sorted =>
        simp only [hsort] at h
        cases Except.ok.inj h
        have hbase : ∀ x ∈ mods1.filter (fun m => !(m.name == "logger")),
            x.name ≠ "logger" := by
          intro x hx
          have hpf := List.of_mem_filter hx
          rw [Bool.not_eq_true'] at hpf
          exact beq_eq_false_iff_ne.mp hpf
        intro e he
        simp only [List.mem_append] at he
        rcases he with (((h1 | h2) | h3) | h4) | h5
        · have hperm := (sortGo_sound _ _ _ _ hsort).1
          exact hbase e (List.mem_of_mem_filter (hperm.mem_iff.mp h1))
        · exact hbase e (List.mem_of_mem_filter h2)
        · exact hbase e (List.mem_of_mem_filter h3)
        · exact hbase e (List.mem_of_mem_filter h4)
        · exact hbase e (List.mem_of_mem_filter h5)

/-- C10 witness: in a concrete successful extraction that returns one
standard whole-module entry, that entry is not named logger. -/
theorem scrape_func_filters_logger_witness :
    (ModEntry.mk "json" (some "json") "standard" false none true).name ≠ "logger" :=
  scrape_func_filters_logger "def f():\n    return json.dumps(1)" "f"
    [("json", PyObj.pymodule 4 "json" false)] [] "proj" (fun _ => false) (fun _ => "")
    (ScrapeResult.mk "def f():\n    return json.dumps(1)" "f" [] []
      [ModEntry.mk "json" (some "json") "standard" false none true] [] [])
    (by rfl)
    (ModEntry.mk "json" (some "json") "standard" false none true) (by decide)

end Naptha
